import Mathlib

/-!
Verification of the subset-sum enumeration engine and its result
reconciliation logic, as implemented in the pure-Python fallback of
`subset_sum_wrapper.py` (class `PySubsetSumSolver`) and the
dedup/pad/index-matching logic of `file_operations.py`
(`export_to_excel` and its inner `match_solution`).

Numeric values are modelled as rationals (ℚ): the Python code uses
binary floats, but all claims under study are about control flow,
ordering, counting and an `abs (… - target) < 1e-6` comparison, which
the embedding renders in exact arithmetic with ε = 1/1000000.
-/

namespace SubsetSum

/-- The float literal `1e-6` used by `_backtrack` as the solution
tolerance. -/
def eps : ℚ := 1 / 1000000

/-- Mutable solver state threaded through `_backtrack`: the fields
`should_stop`, `solutions`, `processed_combinations` of
`PySubsetSumSolver`, plus:

* `progressLog` — the sequence of values delivered to
  `progress_callback` (one entry per assignment of `self.progress`,
  assuming a callback is installed, as `CalculationManager` always
  does);
* `reads` — a counter of the reads of `self.should_stop`, used to
  model the interleaving point at which an external `stop()` call
  can first be observed.  The solver itself never consults it except
  through `readStop`. -/
structure SolverState where
  should_stop : Bool
  solutions : List (List ℚ)
  processed_combinations : ℕ
  progressLog : List ℚ
  reads : ℕ
  deriving DecidableEq

/-- One read of `self.should_stop`.  `stopAt = some K` models an
external `stop()` call that becomes visible at the K-th read (counted
from 0); `stopAt = none` models a run with no external stop request,
in which case the read returns exactly the stored flag, as in the
Python source. -/
def readStop (stopAt : Option ℕ) (st : SolverState) : Bool :=
  st.should_stop || (match stopAt with
    | none => false
    | some K => decide (K ≤ st.reads))

/-- The state after a read of `self.should_stop` (the read counter
advances; nothing else changes). -/
def afterRead (st : SolverState) : SolverState :=
  { st with reads := st.reads + 1 }

/-- `solutions.append(current_subset.copy())` followed by
`if len(solutions) >= max_solutions: self.should_stop = True`. -/
def appendSolution (maxSolutions : ℕ) (currentSubset : List ℚ)
    (st : SolverState) : SolverState :=
  { st with
    solutions := st.solutions ++ [currentSubset]
    should_stop :=
      if maxSolutions ≤ (st.solutions ++ [currentSubset]).length then true
      else st.should_stop }

/-- The `if start == 0:` block at the end of `_backtrack`:
`self.processed_combinations += 1`, recompute `self.progress` as
`processed / total * 100`, and deliver it to the progress callback. -/
def topProgress (total : ℕ) (start : ℕ) (st : SolverState) : SolverState :=
  if start = 0 then
    { st with
      processed_combinations := st.processed_combinations + 1
      progressLog := st.progressLog ++
        [((st.processed_combinations + 1 : ℕ) : ℚ) / (total : ℚ) * 100] }
  else st

mutual

/-- Fuel-indexed form of `PySubsetSumSolver._backtrack(numbers,
target, start, current_sum, current_subset, solutions,
max_solutions)`.  The Python method mutates `solutions`,
`self.should_stop`, `self.processed_combinations` and `self.progress`
in place; here those live in `SolverState` and are threaded
explicitly.  `total` is `self.total_combinations`.  The `fuel`
argument only makes the recursion structural; `btF_irrel` shows it is
irrelevant once large enough, and the wrapper `backtrack` below
always supplies enough. -/
def btF : ℕ → Option ℕ → List ℚ → ℚ → ℕ → ℕ → ℕ → ℚ → List ℚ →
    SolverState → SolverState
  | 0, _, _, _, _, _, _, _, _, st => st
  | fuel + 1, stopAt, numbers, target, maxSolutions, total, start,
      currentSum, currentSubset, st =>
    -- `if self.should_stop or len(solutions) >= max_solutions: return`
    if readStop stopAt st = true ∨ maxSolutions ≤ st.solutions.length then
      afterRead st
    -- `if abs(current_sum - target) < 1e-6: ...append...; return`
    else if |currentSum - target| < eps then
      appendSolution maxSolutions currentSubset (afterRead st)
    -- `if current_sum > target: return`
    else if target < currentSum then
      afterRead st
    else
      -- `for i in range(start, len(numbers)): ...`, then the
      -- top-level progress update (early returns above skip it).
      topProgress total start
        (btForF fuel stopAt numbers target maxSolutions total start
          currentSum currentSubset (afterRead st))
  termination_by structural fuel => fuel

/-- Fuel-indexed form of the `for i in range(start, len(numbers))`
loop of `_backtrack`: push `numbers[i]`, recurse at `i + 1`, pop, and
break out of the loop when a read of `self.should_stop` returns
true. -/
def btForF : ℕ → Option ℕ → List ℚ → ℚ → ℕ → ℕ → ℕ → ℚ → List ℚ →
    SolverState → SolverState
  | 0, _, _, _, _, _, _, _, _, st => st
  | fuel + 1, stopAt, numbers, target, maxSolutions, total, i,
      currentSum, currentSubset, st =>
    if h : i < numbers.length then
      let v := numbers.get ⟨i, h⟩
      let st' := btF fuel stopAt numbers target maxSolutions total
        (i + 1) (currentSum + v) (currentSubset ++ [v]) st
      -- `if self.should_stop: break`
      if readStop stopAt st' = true then
        afterRead st'
      else
        btForF fuel stopAt numbers target maxSolutions total (i + 1)
          currentSum currentSubset (afterRead st')
    else
      st
  termination_by structural fuel => fuel

end

/-- `_backtrack` proper: `btF` with sufficient fuel. -/
def backtrack (stopAt : Option ℕ) (numbers : List ℚ) (target : ℚ)
    (maxSolutions : ℕ) (total : ℕ) (start : ℕ) (currentSum : ℚ)
    (currentSubset : List ℚ) (st : SolverState) : SolverState :=
  btF (2 * (numbers.length - start) + 2) stopAt numbers target
    maxSolutions total start currentSum currentSubset st

/-- The `for` loop of `_backtrack` proper: `btForF` with sufficient
fuel. -/
def backtrackFor (stopAt : Option ℕ) (numbers : List ℚ) (target : ℚ)
    (maxSolutions : ℕ) (total : ℕ) (i : ℕ) (currentSum : ℚ)
    (currentSubset : List ℚ) (st : SolverState) : SolverState :=
  btForF (2 * (numbers.length - i) + 1) stopAt numbers target
    maxSolutions total i currentSum currentSubset st

/-- The initial `SearchState` set up by `find_subsets` (flag cleared,
counters reset, empty result buffer). -/
def initState : SolverState :=
  { should_stop := false, solutions := [], processed_combinations := 0
    progressLog := [], reads := 0 }

/-- `PySubsetSumSolver.find_subsets(numbers, target, max_solutions)`,
returning the whole final solver state.  Raising `ValueError` on an
empty input list is modelled with `Except.error`; `memory_limit_mb`
is accepted and ignored, as in the Python source. -/
def findSubsetsSt (stopAt : Option ℕ) (numbers : List ℚ) (target : ℚ)
    (maxSolutions : ℕ) : Except String SolverState :=
  if numbers = [] then
    .error "输入数字列表不能为空"
  else
    let total := min (2 ^ numbers.length) (2 ^ 63 - 1)
    .ok (backtrack stopAt numbers target maxSolutions total 0 0 [] initState)

/-- The value `find_subsets` returns to its caller: the `solutions`
list.  `stopAt = none`: no external `stop()` call during the run. -/
def findSubsets (numbers : List ℚ) (target : ℚ) (maxSolutions : ℕ) :
    Except String (List (List ℚ)) :=
  (findSubsetsSt none numbers target maxSolutions).map (·.solutions)

/-- Written from the spec's words (§4.1, for the refinement claim
C4): the reference enumeration "first sorts the numbers ascending and
then, for index i from 0 to n−1, decides include sorted[i] before
exclude sorted[i]" — i.e. the same canonical backtracking run on the
ascending-sorted copy of the input. -/
def sortedReference (numbers : List ℚ) (target : ℚ)
    (maxSolutions : ℕ) : Except String (List (List ℚ)) :=
  findSubsets (numbers.insertionSort (· ≤ ·)) target maxSolutions

/-- The progress values delivered to the progress callback during a
run of `find_subsets` (empty for the error case). -/
def findSubsetsLog (numbers : List ℚ) (target : ℚ) (maxSolutions : ℕ) :
    List ℚ :=
  match findSubsetsSt none numbers target maxSolutions with
  | .error _ => []
  | .ok st => st.progressLog

/-!
## The reconciler: `export_to_excel`'s dedup / match / pad logic

`export_to_excel(input_numbers, solutions, file_path)` in
`file_operations.py`.  The Excel formatting is irrelevant to the
claims; what is modelled is the computation of `solution_indices`
(one index list per output column) and `unique_count` (columns
`0 .. unique_count-1` are labelled 唯一/unique, the rest 重复/
duplicate).
-/

/-- One step of building `original_value_to_indices`: append index
`i` to the queue of value `v` (Python dict insertion semantics:
extend the existing entry, else add a new entry at the end). -/
def addIndex : List (ℚ × List ℕ) → ℚ → ℕ → List (ℚ × List ℕ)
  | [], v, i => [(v, [i])]
  | (k, ixs) :: rest, v, i =>
    if k = v then (k, ixs ++ [i]) :: rest
    else (k, ixs) :: addIndex rest v i

/-- The `for i, num in enumerate(input_numbers)` loop that builds
`original_value_to_indices`, with `i` the index of the next element
of `vs` in the full input list. -/
def buildMapAux : List (ℚ × List ℕ) → ℕ → List ℚ → List (ℚ × List ℕ)
  | m, _, [] => m
  | m, i, v :: vs => buildMapAux (addIndex m v i) (i + 1) vs

/-- `original_value_to_indices`: for each distinct value of
`input_numbers`, the list of positions holding it, in ascending
order. -/
def buildMap (input : List ℚ) : List (ℚ × List ℕ) :=
  buildMapAux [] 0 input

/-- Dictionary lookup `available_indices[v]` (empty list when the key
is absent). -/
def lookupQueue : List (ℚ × List ℕ) → ℚ → List ℕ
  | [], _ => []
  | (k, ixs) :: rest, v => if k = v then ixs else lookupQueue rest v

/-- `if val in available_indices and available_indices[val]:
idx = available_indices[val].pop(0)` — pop the earliest still-unused
position holding value `v`, or `none` when the key is absent or its
queue is exhausted. -/
def popFirst : List (ℚ × List ℕ) → ℚ → Option (ℕ × List (ℚ × List ℕ))
  | [], _ => none
  | (k, ixs) :: rest, v =>
    if k = v then
      match ixs with
      | [] => none
      | i :: ixs' => some (i, (k, ixs') :: rest)
    else
      match popFirst rest v with
      | none => none
      | some (i, rest') => some (i, (k, ixs) :: rest')

/-- The `for val in solution` loop of `match_solution`: greedily pop
a position for each value; values with no remaining position are
silently skipped (no index is appended for them). -/
def matchGo : List (ℚ × List ℕ) → List ℚ → List ℕ
  | _, [] => []
  | avail, v :: rest =>
    match popFirst avail v with
    | some (i, avail') => i :: matchGo avail' rest
    | none => matchGo avail rest

/-- `match_solution(solution)` from `export_to_excel` (the identical
helper also appears in `main.py`): match each solution value to the
earliest unused original position holding that value, starting from a
fresh copy of `original_value_to_indices`. -/
def matchSolution (input : List ℚ) (solution : List ℚ) : List ℕ :=
  matchGo (buildMap input) solution

/-- `tuple(sorted(solution))` — the solution signature used as the
deduplication key. -/
def sortedSig (solution : List ℚ) : List ℚ :=
  solution.insertionSort (· ≤ ·)

/-- The deduplication loop of `export_to_excel`: keep the first
solution per distinct signature (`seen` is `unique_solution_hash`),
returning `(unique_solutions, unique_indices)` in discovery order. -/
def dedupAux (input : List ℚ) (seen : List (List ℚ)) :
    List (List ℚ) → List (List ℚ) × List (List ℕ)
  | [] => ([], [])
  | sol :: rest =>
    let sig := sortedSig sol
    if sig ∈ seen then dedupAux input seen rest
    else
      let p := dedupAux input (sig :: seen) rest
      (sol :: p.1, matchSolution input sol :: p.2)

/-- `unique_indices` (the matched index lists of the deduplicated
solutions, in discovery order). -/
def uniqueIndicesOf (input : List ℚ) (solutions : List (List ℚ)) :
    List (List ℕ) :=
  (dedupAux input [] solutions).2

/-- Fuel-indexed form of the
`while len(solution_indices) < solution_count` padding loop.  In the
source, `solution_indices = unique_indices` binds both names to the
*same* list object, so the append mutates both and the pad index
`len(solution_indices) % len(unique_indices)` is computed on one list
of one length: it is always `si.length % si.length = 0`, and every
padding slot receives the current first element.  The single `si`
below is that shared list.  The wrapper `padWhile` supplies exactly
the number of iterations the loop performs. -/
def padWhileF : ℕ → ℕ → List (List ℕ) → List (List ℕ)
  | 0, _, si => si
  | fuel + 1, solutionCount, si =>
    if si.length < solutionCount then
      padWhileF fuel solutionCount
        (si ++ [si.getD (si.length % si.length) []])
    else si

/-- The padding loop proper: `padWhileF` with exactly enough fuel. -/
def padWhile (solutionCount : ℕ) (si : List (List ℕ)) :
    List (List ℕ) :=
  padWhileF (solutionCount - si.length) solutionCount si

/-- The reconciliation outcome: `solution_indices` (one original-index
list per output column) and `unique_count` (columns before it are
flagged unique, the rest duplicate). -/
structure ReconcileResult where
  indices : List (List ℕ)
  uniqueCount : ℕ
  deriving DecidableEq

/-- The dedup-and-pad core of `export_to_excel`: `solution_count` is
`len(solutions)`; deduplicate, then pad with the aliased while-loop
`padWhile` (which, because `solution_indices` and `unique_indices`
are one list, repeats the first unique view in every padding slot —
see `padWhileF`; or, when there is no unique solution, re-match the
first `solution_count` raw solutions), then truncate to
`solution_count`.
In every control path the Python variable `unique_count` ends up equal
to `len(unique_indices)` (it is assigned that value either before the
padding loop or by the `locals()` fallback). -/
def reconcile (input : List ℚ) (solutions : List (List ℚ)) :
    ReconcileResult :=
  let solutionCount := solutions.length
  let uniqueIndices := uniqueIndicesOf input solutions
  let si := uniqueIndices
  let si :=
    if uniqueIndices.length < solutionCount then
      if uniqueIndices ≠ [] then
        padWhile solutionCount si
      else
        si ++ (solutions.take solutionCount).map (matchSolution input)
    else si
  let si :=
    if solutionCount < si.length then si.take solutionCount else si
  ⟨si, uniqueIndices.length⟩

/-- A column's header flag: `解决方案 i+1 (唯一)` iff `i` is below
`unique_count`. -/
def isUniqueFlag (r : ReconcileResult) (i : ℕ) : Bool :=
  decide (i < r.uniqueCount)

/-- A state in which the run with external stop point `K` observes
the stop request: either `self.should_stop` is already set, or the
K-th read of the flag has happened (so every later read returns
true). -/
def stoppedAt (K : ℕ) (st : SolverState) : Prop :=
  st.should_stop = true ∨ K ≤ st.reads

/-- Simulation relation between a run with external stop point `K`
and the same run with no external stop request: either the two states
are still identical, or the stopped run has frozen its solution
buffer at a prefix of the live run's buffer. -/
def stopSim (K : ℕ) (st₁ st₂ : SolverState) : Prop :=
  st₁ = st₂ ∨ (stoppedAt K st₁ ∧ st₁.solutions <+: st₂.solutions)

mutual

/-- The fuel argument of `btF` is irrelevant once it is at least
`2 * (numbers.length - start) + 2`. -/
theorem btF_irrel (f f' : ℕ) (stopAt : Option ℕ) (numbers : List ℚ)
    (target : ℚ) (maxS total start : ℕ) (currentSum : ℚ)
    (currentSubset : List ℚ) (st : SolverState)
    (hf : 2 * (numbers.length - start) + 2 ≤ f)
    (hf' : 2 * (numbers.length - start) + 2 ≤ f') :
    btF f stopAt numbers target maxS total start currentSum
        currentSubset st =
      btF f' stopAt numbers target maxS total start currentSum
        currentSubset st := by
  cases f with
  | zero => omega
  | succ a =>
    cases f' with
    | zero => omega
    | succ b =>
      simp only [btF]
      split
      · rfl
      · split
        · rfl
        · split
          · rfl
          · rw [btForF_irrel a b stopAt numbers target maxS total start
              currentSum currentSubset (afterRead st)
              (by omega) (by omega)]
termination_by f
decreasing_by all_goals omega

/-- The fuel argument of `btForF` is irrelevant once it is at least
`2 * (numbers.length - i) + 1`. -/
theorem btForF_irrel (f f' : ℕ) (stopAt : Option ℕ) (numbers : List ℚ)
    (target : ℚ) (maxS total i : ℕ) (currentSum : ℚ)
    (currentSubset : List ℚ) (st : SolverState)
    (hf : 2 * (numbers.length - i) + 1 ≤ f)
    (hf' : 2 * (numbers.length - i) + 1 ≤ f') :
    btForF f stopAt numbers target maxS total i currentSum
        currentSubset st =
      btForF f' stopAt numbers target maxS total i currentSum
        currentSubset st := by
  cases f with
  | zero => omega
  | succ a =>
    cases f' with
    | zero => omega
    | succ b =>
      simp only [btForF]
      split
      · rename_i h
        rw [btF_irrel a b stopAt numbers target maxS total (i + 1) _ _ st
          (by omega) (by omega)]
        split
        · rfl
        · rw [btForF_irrel a b stopAt numbers target maxS total (i + 1)
            currentSum currentSubset _ (by omega) (by omega)]
      · rfl
termination_by f
decreasing_by all_goals omega

end

/-- One-step unfolding of `backtrack`, mirroring the body of
`_backtrack` line by line. -/
theorem backtrack_eq (stopAt : Option ℕ) (numbers : List ℚ)
    (target : ℚ) (maxS total start : ℕ) (currentSum : ℚ)
    (currentSubset : List ℚ) (st : SolverState) :
    backtrack stopAt numbers target maxS total start currentSum
        currentSubset st =
      if readStop stopAt st = true ∨ maxS ≤ st.solutions.length then
        afterRead st
      else if |currentSum - target| < eps then
        appendSolution maxS currentSubset (afterRead st)
      else if target < currentSum then
        afterRead st
      else
        topProgress total start
          (backtrackFor stopAt numbers target maxS total start
            currentSum currentSubset (afterRead st)) := rfl

/-- One-step unfolding of `backtrackFor` when the loop has remaining
iterations. -/
theorem backtrackFor_eq_lt (stopAt : Option ℕ) (numbers : List ℚ)
    (target : ℚ) (maxS total i : ℕ) (currentSum : ℚ)
    (currentSubset : List ℚ) (st : SolverState)
    (h : i < numbers.length) :
    backtrackFor stopAt numbers target maxS total i currentSum
        currentSubset st =
      (if readStop stopAt
          (backtrack stopAt numbers target maxS total (i + 1)
            (currentSum + numbers.get ⟨i, h⟩)
            (currentSubset ++ [numbers.get ⟨i, h⟩]) st) = true then
        afterRead
          (backtrack stopAt numbers target maxS total (i + 1)
            (currentSum + numbers.get ⟨i, h⟩)
            (currentSubset ++ [numbers.get ⟨i, h⟩]) st)
      else
        backtrackFor stopAt numbers target maxS total (i + 1)
          currentSum currentSubset
          (afterRead
            (backtrack stopAt numbers target maxS total (i + 1)
              (currentSum + numbers.get ⟨i, h⟩)
              (currentSubset ++ [numbers.get ⟨i, h⟩]) st))) := by
  have hbt : btF (2 * (numbers.length - i)) stopAt numbers target maxS
      total (i + 1) (currentSum + numbers.get ⟨i, h⟩)
      (currentSubset ++ [numbers.get ⟨i, h⟩]) st =
      backtrack stopAt numbers target maxS total (i + 1)
        (currentSum + numbers.get ⟨i, h⟩)
        (currentSubset ++ [numbers.get ⟨i, h⟩]) st := by
    unfold backtrack
    exact btF_irrel _ _ _ _ _ _ _ _ _ _ _ (by omega) (by omega)
  have hfor : ∀ st0 : SolverState,
      btForF (2 * (numbers.length - i)) stopAt numbers target maxS
        total (i + 1) currentSum currentSubset st0 =
      backtrackFor stopAt numbers target maxS total (i + 1) currentSum
        currentSubset st0 := by
    intro st0
    unfold backtrackFor
    exact btForF_irrel _ _ _ _ _ _ _ _ _ _ _ (by omega) (by omega)
  show btForF (2 * (numbers.length - i) + 1) stopAt numbers target
      maxS total i currentSum currentSubset st = _
  rw [btForF]
  simp only [dif_pos h, hbt, hfor]

/-- `backtrackFor` once the index cursor has exhausted the list. -/
theorem backtrackFor_eq_ge (stopAt : Option ℕ) (numbers : List ℚ)
    (target : ℚ) (maxS total i : ℕ) (currentSum : ℚ)
    (currentSubset : List ℚ) (st : SolverState)
    (h : ¬ i < numbers.length) :
    backtrackFor stopAt numbers target maxS total i currentSum
        currentSubset st = st := by
  show btForF (2 * (numbers.length - i) + 1) stopAt numbers target
      maxS total i currentSum currentSubset st = st
  rw [btForF]
  simp only [dif_neg h]

/-! ## Basic lemmas about the state helpers -/

@[simp] theorem afterRead_should_stop (st : SolverState) :
    (afterRead st).should_stop = st.should_stop := rfl

@[simp] theorem afterRead_solutions (st : SolverState) :
    (afterRead st).solutions = st.solutions := rfl

@[simp] theorem afterRead_processed (st : SolverState) :
    (afterRead st).processed_combinations = st.processed_combinations := rfl

@[simp] theorem afterRead_progressLog (st : SolverState) :
    (afterRead st).progressLog = st.progressLog := rfl

@[simp] theorem afterRead_reads (st : SolverState) :
    (afterRead st).reads = st.reads + 1 := rfl

@[simp] theorem appendSolution_solutions (m : ℕ) (c : List ℚ)
    (st : SolverState) :
    (appendSolution m c st).solutions = st.solutions ++ [c] := rfl

@[simp] theorem appendSolution_processed (m : ℕ) (c : List ℚ)
    (st : SolverState) :
    (appendSolution m c st).processed_combinations =
      st.processed_combinations := rfl

@[simp] theorem appendSolution_progressLog (m : ℕ) (c : List ℚ)
    (st : SolverState) :
    (appendSolution m c st).progressLog = st.progressLog := rfl

@[simp] theorem appendSolution_reads (m : ℕ) (c : List ℚ)
    (st : SolverState) :
    (appendSolution m c st).reads = st.reads := rfl

theorem appendSolution_should_stop_of (m : ℕ) (c : List ℚ)
    (st : SolverState) (h : st.should_stop = true) :
    (appendSolution m c st).should_stop = true := by
  simp only [appendSolution]
  split <;> simp [h]

@[simp] theorem topProgress_solutions (total start : ℕ) (st : SolverState) :
    (topProgress total start st).solutions = st.solutions := by
  unfold topProgress; split <;> rfl

@[simp] theorem topProgress_should_stop (total start : ℕ)
    (st : SolverState) :
    (topProgress total start st).should_stop = st.should_stop := by
  unfold topProgress; split <;> rfl

@[simp] theorem topProgress_reads (total start : ℕ) (st : SolverState) :
    (topProgress total start st).reads = st.reads := by
  unfold topProgress; split <;> rfl

theorem topProgress_of_pos (total start : ℕ) (st : SolverState)
    (h : start ≠ 0) : topProgress total start st = st := by
  unfold topProgress
  simp [h]

/-! ## Monotonicity of a `_backtrack` call

The result buffer only grows by appends at the back, the cancellation
flag is never cleared, and the read counter never decreases. -/

mutual

theorem backtrack_mono (stopAt : Option ℕ) (numbers : List ℚ)
    (target : ℚ) (maxS total start : ℕ) (currentSum : ℚ)
    (currentSubset : List ℚ) (st : SolverState) :
    st.solutions <+:
        (backtrack stopAt numbers target maxS total start currentSum
          currentSubset st).solutions ∧
      (st.should_stop = true →
        (backtrack stopAt numbers target maxS total start currentSum
          currentSubset st).should_stop = true) ∧
      st.reads ≤
        (backtrack stopAt numbers target maxS total start currentSum
          currentSubset st).reads := by
  rw [backtrack_eq]
  split
  · simp
  · split
    · refine ⟨by simp, ?_, by simp⟩
      intro h
      exact appendSolution_should_stop_of _ _ _ (by simp [h])
    · split
      · simp
      · have h := backtrackFor_mono stopAt numbers target maxS total start
          currentSum currentSubset (afterRead st)
        refine ⟨?_, ?_, ?_⟩
        · simpa using h.1
        · intro hs
          simpa using h.2.1 (by simp [hs])
        · have := h.2.2
          simp only [afterRead_reads, topProgress_reads] at this ⊢
          omega
termination_by 2 * (numbers.length - start) + 3
decreasing_by all_goals (simp_wf; try omega)

theorem backtrackFor_mono (stopAt : Option ℕ) (numbers : List ℚ)
    (target : ℚ) (maxS total i : ℕ) (currentSum : ℚ)
    (currentSubset : List ℚ) (st : SolverState) :
    st.solutions <+:
        (backtrackFor stopAt numbers target maxS total i currentSum
          currentSubset st).solutions ∧
      (st.should_stop = true →
        (backtrackFor stopAt numbers target maxS total i currentSum
          currentSubset st).should_stop = true) ∧
      st.reads ≤
        (backtrackFor stopAt numbers target maxS total i currentSum
          currentSubset st).reads := by
  by_cases h : i < numbers.length
  · rw [backtrackFor_eq_lt stopAt numbers target maxS total i
      currentSum currentSubset st h]
    have h1 := backtrack_mono stopAt numbers target maxS total (i + 1)
      (currentSum + numbers.get ⟨i, h⟩)
      (currentSubset ++ [numbers.get ⟨i, h⟩]) st
    split
    · refine ⟨?_, ?_, ?_⟩
      · simpa using h1.1
      · intro hs; simpa using h1.2.1 hs
      · have := h1.2.2; simp only [afterRead_reads]; omega
    · have h2 := backtrackFor_mono stopAt numbers target maxS total (i + 1)
        currentSum currentSubset
        (afterRead (backtrack stopAt numbers target maxS total (i + 1)
          (currentSum + numbers.get ⟨i, h⟩)
          (currentSubset ++ [numbers.get ⟨i, h⟩]) st))
      refine ⟨?_, ?_, ?_⟩
      · exact h1.1.trans (by simpa using h2.1)
      · intro hs
        exact h2.2.1 (by simpa using h1.2.1 hs)
      · have ha := h1.2.2
        have hb := h2.2.2
        simp only [afterRead_reads] at hb
        omega
  · rw [backtrackFor_eq_ge stopAt numbers target maxS total i
      currentSum currentSubset st h]
    exact ⟨List.prefix_refl _, fun hs => hs, le_refl _⟩
termination_by 2 * (numbers.length - i) + 2
decreasing_by all_goals (simp_wf; try omega)

end

/-! ## The result buffer never exceeds `max_solutions` (claim C7) -/

mutual

theorem backtrack_len_le (stopAt : Option ℕ) (numbers : List ℚ)
    (target : ℚ) (maxS total start : ℕ) (currentSum : ℚ)
    (currentSubset : List ℚ) (st : SolverState)
    (h : st.solutions.length ≤ maxS) :
    (backtrack stopAt numbers target maxS total start currentSum
      currentSubset st).solutions.length ≤ maxS := by
  rw [backtrack_eq]
  split
  · simpa using h
  · rename_i hg
    push_neg at hg
    split
    · simp only [appendSolution_solutions, afterRead_solutions,
        List.length_append, List.length_singleton]
      omega
    · split
      · simpa using h
      · simp only [topProgress_solutions]
        exact backtrackFor_len_le stopAt numbers target maxS total
          start currentSum currentSubset (afterRead st) (by simpa using h)
termination_by 2 * (numbers.length - start) + 3
decreasing_by all_goals (simp_wf; try omega)

theorem backtrackFor_len_le (stopAt : Option ℕ) (numbers : List ℚ)
    (target : ℚ) (maxS total i : ℕ) (currentSum : ℚ)
    (currentSubset : List ℚ) (st : SolverState)
    (h : st.solutions.length ≤ maxS) :
    (backtrackFor stopAt numbers target maxS total i currentSum
      currentSubset st).solutions.length ≤ maxS := by
  by_cases hi : i < numbers.length
  · rw [backtrackFor_eq_lt stopAt numbers target maxS total i
      currentSum currentSubset st hi]
    have h1 := backtrack_len_le stopAt numbers target maxS total (i + 1)
      (currentSum + numbers.get ⟨i, hi⟩)
      (currentSubset ++ [numbers.get ⟨i, hi⟩]) st h
    split
    · simpa using h1
    · exact backtrackFor_len_le stopAt numbers target maxS total (i + 1)
        currentSum currentSubset _ (by simpa using h1)
  · rw [backtrackFor_eq_ge stopAt numbers target maxS total i
      currentSum currentSubset st hi]
    exact h
termination_by 2 * (numbers.length - i) + 2
decreasing_by all_goals (simp_wf; try omega)

end

/-! ## Progress bookkeeping is touched only by the root call (claim C5)

Recursive calls have `start ≥ 1`, and the loop recurses only at
`i + 1 ≥ 1`, so `processed_combinations` and the progress log change
only in the `start == 0` block at the end of the root call. -/

mutual

theorem backtrack_progress_const (stopAt : Option ℕ) (numbers : List ℚ)
    (target : ℚ) (maxS total start : ℕ) (currentSum : ℚ)
    (currentSubset : List ℚ) (st : SolverState) (h : start ≠ 0) :
    (backtrack stopAt numbers target maxS total start currentSum
          currentSubset st).processed_combinations =
        st.processed_combinations ∧
      (backtrack stopAt numbers target maxS total start currentSum
          currentSubset st).progressLog = st.progressLog := by
  rw [backtrack_eq]
  split
  · simp
  · split
    · simp
    · split
      · simp
      · rw [topProgress_of_pos total start _ h]
        have := backtrackFor_progress_const stopAt numbers target maxS
          total start currentSum currentSubset (afterRead st)
        simpa using this
termination_by 2 * (numbers.length - start) + 3
decreasing_by all_goals (simp_wf; try omega)

theorem backtrackFor_progress_const (stopAt : Option ℕ)
    (numbers : List ℚ) (target : ℚ) (maxS total i : ℕ)
    (currentSum : ℚ) (currentSubset : List ℚ) (st : SolverState) :
    (backtrackFor stopAt numbers target maxS total i currentSum
          currentSubset st).processed_combinations =
        st.processed_combinations ∧
      (backtrackFor stopAt numbers target maxS total i currentSum
          currentSubset st).progressLog = st.progressLog := by
  by_cases hi : i < numbers.length
  · rw [backtrackFor_eq_lt stopAt numbers target maxS total i
      currentSum currentSubset st hi]
    have h1 := backtrack_progress_const stopAt numbers target maxS
      total (i + 1) (currentSum + numbers.get ⟨i, hi⟩)
      (currentSubset ++ [numbers.get ⟨i, hi⟩]) st (by omega)
    split
    · simpa using h1
    · have h2 := backtrackFor_progress_const stopAt numbers target maxS
        total (i + 1) currentSum currentSubset
        (afterRead (backtrack stopAt numbers target maxS total (i + 1)
          (currentSum + numbers.get ⟨i, hi⟩)
          (currentSubset ++ [numbers.get ⟨i, hi⟩]) st))
      simp only [afterRead_processed, afterRead_progressLog] at h2
      exact ⟨h2.1.trans h1.1, h2.2.trans h1.2⟩
  · rw [backtrackFor_eq_ge stopAt numbers target maxS total i
      currentSum currentSubset st hi]
    exact ⟨rfl, rfl⟩
termination_by 2 * (numbers.length - i) + 2
decreasing_by all_goals (simp_wf; try omega)

end

@[simp] theorem readStop_none (st : SolverState) :
    readStop none st = st.should_stop := by
  simp [readStop]

/-! ## Claim theorems about the Search Core -/

/-- **C7**: throughout every execution of the backtracking search the
length of the result buffer never exceeds `max_solutions` (any call
entered with a conforming buffer leaves a conforming buffer), and the
list returned by `find_subsets` has at most `max_solutions` entries. -/
theorem C7_buffer_never_exceeds_max (numbers : List ℚ) (target : ℚ)
    (maxS : ℕ) :
    (∀ (stopAt : Option ℕ) (total start : ℕ) (currentSum : ℚ)
        (currentSubset : List ℚ) (st : SolverState),
        st.solutions.length ≤ maxS →
        (backtrack stopAt numbers target maxS total start currentSum
          currentSubset st).solutions.length ≤ maxS) ∧
      ∀ sols, findSubsets numbers target maxS = .ok sols →
        sols.length ≤ maxS := by
  constructor
  · intro stopAt total start currentSum currentSubset st h
    exact backtrack_len_le stopAt numbers target maxS total start
      currentSum currentSubset st h
  · intro sols h
    unfold findSubsets findSubsetsSt at h
    split at h
    · exact absurd h (by simp [Except.map])
    · simp only [Except.map] at h
      cases h
      exact backtrack_len_le _ _ _ _ _ _ _ _ _ (by simp [initState])

/-- Witness for C7 at a concrete input: a run of `find_subsets` on
`[1, 2]` with `max_solutions = 1`, and a `_backtrack` call entered
with a full buffer. -/
theorem C7_buffer_never_exceeds_max_witness :
    ([[1, 2]] : List (List ℚ)).length ≤ 1 ∧
      (backtrack none [1, 2] 3 1 4 1 0 [] initState).solutions.length
        ≤ 1 :=
  ⟨(C7_buffer_never_exceeds_max [1, 2] 3 1).2 [[1, 2]]
      (by with_unfolding_all rfl),
    (C7_buffer_never_exceeds_max [1, 2] 3 1).1 none 4 1 0 [] initState
      (by simp [initState])⟩

/-- **C10**: whenever the input list is non-empty, `|target| < 1e-6`
and `max_solutions ≥ 1`, `find_subsets` returns exactly one solution,
the empty subset: the epsilon check fires at the root of the
recursion before any element is included. -/
theorem C10_tiny_target_empty_subset (numbers : List ℚ) (target : ℚ)
    (maxS : ℕ) (hne : numbers ≠ []) (ht : |target| < eps)
    (hm : 1 ≤ maxS) :
    findSubsets numbers target maxS = .ok [[]] := by
  unfold findSubsets findSubsetsSt
  rw [if_neg hne]
  simp only [Except.map]
  have hg : ¬(readStop none initState = true ∨
      maxS ≤ initState.solutions.length) := by
    simp [initState]
    omega
  have he : |(0 : ℚ) - target| < eps := by
    rw [zero_sub, abs_neg]
    exact ht
  rw [backtrack_eq, if_neg hg, if_pos he]
  simp [appendSolution, afterRead, initState]

/-- Witness for C10: input `[5]`, target `1/2000000` (a positive
target below the tolerance), `max_solutions = 1`. -/
theorem C10_tiny_target_empty_subset_witness :
    findSubsets [5] (1 / 2000000) 1 = .ok [[]] :=
  C10_tiny_target_empty_subset [5] (1 / 2000000) 1 (by simp)
    (by rw [abs_of_pos (by norm_num)]; unfold eps; norm_num)
    le_rfl

/-- **C2 (amended)**: `find_subsets` raises its invalid-input error
exactly when the input list is empty; non-positive values are not
rejected. -/
theorem C2_error_iff_empty (numbers : List ℚ) (target : ℚ)
    (maxS : ℕ) :
    findSubsets numbers target maxS = .error "输入数字列表不能为空" ↔
      numbers = [] := by
  unfold findSubsets findSubsetsSt
  split
  · simpa [Except.map]
  · rename_i h
    simp [Except.map, h]

/-- **C2 counterexample**: the input `[-1]` contains a non-positive
value, yet `find_subsets` completes without an invalid-input error,
returning an empty solution list. -/
theorem C2_counterexample :
    (-1 : ℚ) ≤ 0 ∧ findSubsets [-1] 1 1 = .ok [] :=
  ⟨by norm_num, by with_unfolding_all rfl⟩

/-- **C5 (amended)**: on every run whose root call reaches its loop
(non-empty input, `target ≥ ε`, `max_solutions ≥ 1`), exactly one
progress value is reported, at the end of the root call, and it is
`1 / min(2^n, 2^63 - 1) * 100` — the combinatorial-space fraction
with the full `2^n` denominator, not the linear top-level fraction,
and far below 100 for any non-trivial `n`. -/
theorem C5_single_progress_report (numbers : List ℚ) (target : ℚ)
    (maxS : ℕ) (hne : numbers ≠ []) (ht : eps ≤ target)
    (hm : 1 ≤ maxS) :
    findSubsetsLog numbers target maxS =
      [(1 : ℚ) /
          ((min (2 ^ numbers.length) (2 ^ 63 - 1) : ℕ) : ℚ) * 100] := by
  unfold findSubsetsLog findSubsetsSt
  rw [if_neg hne]
  dsimp only
  have heps : (0 : ℚ) < eps := by unfold eps; norm_num
  have hg : ¬(readStop none initState = true ∨
      maxS ≤ initState.solutions.length) := by
    simp [initState]
    omega
  have he : ¬|(0 : ℚ) - target| < eps := by
    rw [zero_sub, abs_neg, abs_of_pos (by linarith)]
    linarith
  have hp : ¬target < (0 : ℚ) := by linarith
  rw [backtrack_eq, if_neg hg, if_neg he, if_neg hp]
  have hfor := backtrackFor_progress_const none numbers target maxS
    (min (2 ^ numbers.length) (2 ^ 63 - 1)) 0 0 [] (afterRead initState)
  unfold topProgress
  rw [if_pos rfl]
  simp only [hfor.1, hfor.2, afterRead_processed, afterRead_progressLog]
  simp [initState]

/-- Witness for C5's amended statement: `[1, 2]`, target `100`,
`max_solutions = 1`. -/
theorem C5_single_progress_report_witness :
    findSubsetsLog [1, 2] 100 1 =
      [(1 : ℚ) / ((min (2 ^ 2) (2 ^ 63 - 1) : ℕ) : ℚ) * 100] :=
  C5_single_progress_report [1, 2] 100 1 (by simp)
    (by unfold eps; norm_num) le_rfl

/-- **C5 counterexample**: on the run `find_subsets([1,2], 100, 1)` —
which completes normally with no stop request — the only reported
progress value is `25`, so the reported sequence never reaches 100,
and `25` is `1/2² · 100` (the combinatorial-space fraction), not the
claimed `processed top-level branches / n` (which would end at
`2/2 · 100 = 100`). -/
theorem C5_counterexample :
    findSubsetsLog [1, 2] 100 1 = [25] ∧
      (100 : ℚ) ∉ findSubsetsLog [1, 2] 100 1 := by
  have h : findSubsetsLog [1, 2] 100 1 = [25] := by
    with_unfolding_all rfl
  refine ⟨h, ?_⟩
  rw [h]
  intro hmem
  rw [List.mem_singleton] at hmem
  norm_num at hmem

/-- **C4 counterexample**: on the positive input `[3, 1, 2]` with
target `3`, `find_subsets` (which performs no sort) returns
`[[3], [1, 2]]`, while the spec's sorted reference enumeration
returns `[[1, 2], [3]]` — the two disagree. -/
theorem C4_counterexample :
    findSubsets [3, 1, 2] 3 10 = .ok [[3], [1, 2]] ∧
      sortedReference [3, 1, 2] 3 10 = .ok [[1, 2], [3]] ∧
      findSubsets [3, 1, 2] 3 10 ≠ sortedReference [3, 1, 2] 3 10 := by
  have h1 : findSubsets [3, 1, 2] 3 10 = .ok [[3], [1, 2]] := by
    with_unfolding_all rfl
  have h2 : sortedReference [3, 1, 2] 3 10 = .ok [[1, 2], [3]] := by
    with_unfolding_all rfl
  refine ⟨h1, h2, ?_⟩
  rw [h1, h2]
  intro hc
  rw [Except.ok.injEq] at hc
  have := List.head_eq_of_cons_eq hc
  rw [List.cons.injEq] at this
  norm_num at this

/-- **C4 (amended)**: `find_subsets` enumerates include-before-exclude
over the input in the order given, performing no internal sort; its
output therefore coincides with the spec's sorted reference
enumeration exactly on inputs that are already ascending-sorted. -/
theorem C4_agrees_on_sorted_input (numbers : List ℚ) (target : ℚ)
    (maxS : ℕ) (h : numbers.Sorted (· ≤ ·)) :
    findSubsets numbers target maxS =
      sortedReference numbers target maxS := by
  unfold sortedReference
  rw [List.Sorted.insertionSort_eq h]

/-- Witness for C4's amended statement at the sorted input `[1, 2]`. -/
theorem C4_agrees_on_sorted_input_witness :
    findSubsets [1, 2] 3 1 = sortedReference [1, 2] 3 1 :=
  C4_agrees_on_sorted_input [1, 2] 3 1
    (by norm_num [List.sorted_cons])

/-! ## The padding loop

Because the pad index is always `si.length % si.length = 0` and the
head of the shared list never changes as it grows, every slot the
loop appends is the original first element. -/

theorem padWhileF_spec (c : ℕ) :
    ∀ (f : ℕ) (si : List (List ℕ)), c ≤ si.length + f →
      padWhileF f c si =
        si ++ List.replicate (c - si.length) (si.getD 0 []) := by
  intro f
  induction f with
  | zero =>
    intro si h
    have h0 : c - si.length = 0 := by omega
    simp [padWhileF, h0]
  | succ f ih =>
    intro si h
    rw [padWhileF]
    split
    · rename_i hlt
      rw [Nat.mod_self]
      rw [ih _ (by simp; omega)]
      have hhead : (si ++ [si.getD 0 []]).getD 0 [] = si.getD 0 [] := by
        cases si with
        | nil => rfl
        | cons a t => rfl
      rw [hhead]
      have hcl : c - si.length = (c - (si.length + 1)) + 1 := by omega
      simp only [List.length_append, List.length_singleton]
      rw [hcl, List.replicate_succ]
      simp [List.append_assoc]
    · rename_i hge
      have h0 : c - si.length = 0 := by omega
      simp [h0]

theorem padWhile_spec (c : ℕ) (si : List (List ℕ)) :
    padWhile c si =
      si ++ List.replicate (c - si.length) (si.getD 0 []) :=
  padWhileF_spec c _ si (by omega)

theorem padWhile_length (c : ℕ) (si : List (List ℕ)) :
    (padWhile c si).length = max si.length c := by
  rw [padWhile_spec]
  simp only [List.length_append, List.length_replicate]
  omega

/-! ## Deduplication basics -/

theorem dedupAux_len_le (input : List ℚ) :
    ∀ (sols : List (List ℚ)) (seen : List (List ℚ)),
      (dedupAux input seen sols).2.length ≤ sols.length := by
  intro sols
  induction sols with
  | nil => intro seen; simp [dedupAux]
  | cons s rest ih =>
    intro seen
    rw [dedupAux]
    split
    · exact (ih seen).trans (by simp)
    · simpa using ih (sortedSig s :: seen)

theorem uniqueIndicesOf_pos (input : List ℚ)
    (sols : List (List ℚ)) (h : sols ≠ []) :
    0 < (uniqueIndicesOf input sols).length := by
  cases sols with
  | nil => exact absurd rfl h
  | cons s rest =>
    unfold uniqueIndicesOf
    rw [dedupAux]
    simp

/-! ## Claim theorems about the Reconciler -/

/-- **C1 (amended)**: the reconciliation step of `export_to_excel`
always returns exactly as many solution views as raw solutions were
passed in (`len(solutions)`), not the caller's `maxSolutions`; in
particular the result is empty iff the raw list is empty. -/
theorem C1_view_count_eq_raw_count (input : List ℚ)
    (solutions : List (List ℚ)) :
    (reconcile input solutions).indices.length = solutions.length := by
  unfold reconcile
  dsimp only
  by_cases h1 : (uniqueIndicesOf input solutions).length <
      solutions.length
  · rw [if_pos h1]
    by_cases h2 : uniqueIndicesOf input solutions ≠ []
    · rw [if_pos h2]
      have hl := padWhile_length solutions.length
        (uniqueIndicesOf input solutions)
      rw [if_neg (by rw [hl]; omega)]
      rw [hl]
      omega
    · rw [if_neg h2]
      rw [not_not] at h2
      rw [h2]
      simp
  · rw [if_neg h1]
    by_cases h3 : solutions.length <
        (uniqueIndicesOf input solutions).length
    · rw [if_pos h3]
      simp only [List.length_take]
      omega
    · rw [if_neg h3]
      have := dedupAux_len_le input solutions []
      unfold uniqueIndicesOf at *
      omega

/-- **C1 counterexample**: searching `[1]` for target `1` with
`maxSolutions = 2` yields one raw solution, and the reconciliation
step returns one view — not the requested two. -/
theorem C1_counterexample :
    findSubsets [1] 1 2 = .ok [[1]] ∧
      (reconcile [1] [[1]]).indices.length = 1 := by
  constructor
  · with_unfolding_all rfl
  · with_unfolding_all rfl

/-! ## Claim theorems about index matching -/

theorem matchGo_length_le (sol : List ℚ) :
    ∀ avail : List (ℚ × List ℕ), (matchGo avail sol).length ≤
      sol.length := by
  induction sol with
  | nil => intro avail; simp [matchGo]
  | cons v rest ih =>
    intro avail
    rw [matchGo]
    split
    · simpa using ih _
    · exact (ih _).trans (by simp)

/-- **C3 (amended)**: the index-matching step never raises an error;
a raw-solution value with no remaining unused original position is
silently skipped, so the produced index list is at most as long as
the raw solution (and can be strictly shorter). -/
theorem C3_match_never_errors (input solution : List ℚ) :
    (matchSolution input solution).length ≤ solution.length :=
  matchGo_length_le solution _

/-- **C3 counterexample**: matching the raw solution `[2]` against
the original input `[1]` silently returns the empty index list —
strictly shorter than the raw solution — instead of failing with a
reconciliation error. -/
theorem C3_counterexample :
    matchSolution [1] [2] = [] ∧
      (matchSolution [1] [2]).length < ([2] : List ℚ).length := by
  have h : matchSolution [1] [2] = [] := by with_unfolding_all rfl
  exact ⟨h, by rw [h]; simp⟩

/-! ## The padding case of `reconcile` (claim C9) -/

theorem reconcile_pad_case (input : List ℚ)
    (solutions : List (List ℚ))
    (hU : uniqueIndicesOf input solutions ≠ [])
    (h1 : (uniqueIndicesOf input solutions).length <
      solutions.length) :
    reconcile input solutions =
      ⟨padWhile solutions.length (uniqueIndicesOf input solutions),
        (uniqueIndicesOf input solutions).length⟩ := by
  unfold reconcile
  dsimp only
  rw [if_pos h1, if_pos hU]
  rw [if_neg (by rw [padWhile_length]; omega)]

/-- **C9 (the code, evaluated at a failing input)**: searching
`[2, 2, 3, 1, 4, 4]` for target `5` with `max_solutions = 5` returns
five raw solutions which deduplicate to `U = 3` unique views
`[[0,1,3], [0,2], [3,4]]`.  The padding then fills *both* padding
slots with unique view 0 (`[0,1,3]`) — `solution_indices` aliases
`unique_indices`, so the pad index `len % len` is always 0 — whereas
the claimed round-robin `k mod U` would put unique view `1 mod 3`
(`[0,2]`) in the last slot. -/
theorem C9_code_pads_first_unique_only :
    findSubsets [2, 2, 3, 1, 4, 4] 5 5 =
        .ok [[2, 2, 1], [2, 3], [2, 3], [1, 4], [1, 4]] ∧
      uniqueIndicesOf [2, 2, 3, 1, 4, 4]
          [[2, 2, 1], [2, 3], [2, 3], [1, 4], [1, 4]] =
        [[0, 1, 3], [0, 2], [3, 4]] ∧
      (reconcile [2, 2, 3, 1, 4, 4]
          [[2, 2, 1], [2, 3], [2, 3], [1, 4], [1, 4]]).indices =
        [[0, 1, 3], [0, 2], [3, 4], [0, 1, 3], [0, 1, 3]] ∧
      (reconcile [2, 2, 3, 1, 4, 4]
            [[2, 2, 1], [2, 3], [2, 3], [1, 4], [1, 4]]).indices.getD
          4 [] ≠
        (uniqueIndicesOf [2, 2, 3, 1, 4, 4]
            [[2, 2, 1], [2, 3], [2, 3], [1, 4], [1, 4]]).getD
          (1 % 3) [] := by
  have h1 : findSubsets [2, 2, 3, 1, 4, 4] 5 5 =
      .ok [[2, 2, 1], [2, 3], [2, 3], [1, 4], [1, 4]] := by
    with_unfolding_all rfl
  have h2 : uniqueIndicesOf [2, 2, 3, 1, 4, 4]
      [[2, 2, 1], [2, 3], [2, 3], [1, 4], [1, 4]] =
      [[0, 1, 3], [0, 2], [3, 4]] := by
    with_unfolding_all rfl
  have h3 : (reconcile [2, 2, 3, 1, 4, 4]
      [[2, 2, 1], [2, 3], [2, 3], [1, 4], [1, 4]]).indices =
      [[0, 1, 3], [0, 2], [3, 4], [0, 1, 3], [0, 1, 3]] := by
    with_unfolding_all rfl
  refine ⟨h1, h2, h3, ?_⟩
  rw [h2, h3]
  decide

/-! ## Soundness of the Search Core (towards claim C6)

Every solution the search appends is a sub-multiset of the input (it
is built by pushing `numbers[i]` along strictly increasing indices)
and its exact sum lies within ε of the target. -/

mutual

theorem backtrack_sols_sound (stopAt : Option ℕ) (numbers : List ℚ)
    (target : ℚ) (maxS total start : ℕ) (currentSum : ℚ)
    (currentSubset : List ℚ) (st : SolverState)
    (hsum : currentSum = currentSubset.sum)
    (hsub : List.Sublist currentSubset (numbers.take start)) :
    ∀ s ∈ (backtrack stopAt numbers target maxS total start currentSum
        currentSubset st).solutions,
      s ∈ st.solutions ∨
        (List.Sublist s numbers ∧ |s.sum - target| < eps) := by
  rw [backtrack_eq]
  split
  · intro s hs
    exact Or.inl (by simpa using hs)
  · split
    · rename_i heps
      intro s hs
      simp only [appendSolution_solutions, afterRead_solutions,
        List.mem_append, List.mem_singleton] at hs
      rcases hs with hs | rfl
      · exact Or.inl hs
      · refine Or.inr ⟨hsub.trans (List.take_sublist start numbers), ?_⟩
        rw [← hsum]
        exact heps
    · split
      · intro s hs
        exact Or.inl (by simpa using hs)
      · intro s hs
        simp only [topProgress_solutions] at hs
        have := backtrackFor_sols_sound stopAt numbers target maxS
          total start currentSum currentSubset (afterRead st) hsum hsub
          s hs
        simpa using this
termination_by 2 * (numbers.length - start) + 3
decreasing_by all_goals (simp_wf; try omega)

theorem backtrackFor_sols_sound (stopAt : Option ℕ) (numbers : List ℚ)
    (target : ℚ) (maxS total i : ℕ) (currentSum : ℚ)
    (currentSubset : List ℚ) (st : SolverState)
    (hsum : currentSum = currentSubset.sum)
    (hsub : List.Sublist currentSubset (numbers.take i)) :
    ∀ s ∈ (backtrackFor stopAt numbers target maxS total i currentSum
        currentSubset st).solutions,
      s ∈ st.solutions ∨
        (List.Sublist s numbers ∧ |s.sum - target| < eps) := by
  by_cases hi : i < numbers.length
  · rw [backtrackFor_eq_lt stopAt numbers target maxS total i
      currentSum currentSubset st hi]
    have htake : numbers.take (i + 1) =
        numbers.take i ++ [numbers.get ⟨i, hi⟩] := by
      rw [List.take_succ]
      congr 1
      rw [List.getElem?_eq_getElem hi]
      rfl
    have hsum' : currentSum + numbers.get ⟨i, hi⟩ =
        (currentSubset ++ [numbers.get ⟨i, hi⟩]).sum := by
      rw [List.sum_append, hsum]
      simp
    have hsub' : List.Sublist (currentSubset ++ [numbers.get ⟨i, hi⟩])
        (numbers.take (i + 1)) := by
      rw [htake]
      exact List.Sublist.append hsub (List.Sublist.refl _)
    have hbt := backtrack_sols_sound stopAt numbers target maxS total
      (i + 1) (currentSum + numbers.get ⟨i, hi⟩)
      (currentSubset ++ [numbers.get ⟨i, hi⟩]) st hsum' hsub'
    split
    · intro s hs
      exact hbt s (by simpa using hs)
    · intro s hs
      have hfor := backtrackFor_sols_sound stopAt numbers target maxS
        total (i + 1) currentSum currentSubset
        (afterRead (backtrack stopAt numbers target maxS total (i + 1)
          (currentSum + numbers.get ⟨i, hi⟩)
          (currentSubset ++ [numbers.get ⟨i, hi⟩]) st)) hsum
        (hsub.trans (by rw [htake]; exact List.sublist_append_left _ _))
        s hs
      rcases hfor with hmem | hprop
      · exact hbt s (by simpa using hmem)
      · exact Or.inr hprop
  · rw [backtrackFor_eq_ge stopAt numbers target maxS total i
      currentSum currentSubset st hi]
    intro s hs
    exact Or.inl hs
termination_by 2 * (numbers.length - i) + 2
decreasing_by all_goals (simp_wf; try omega)

end

/-- Soundness at the `find_subsets` interface: every returned
solution is a sub-list of the input and sums to the target within
ε. -/
theorem findSubsets_sols_sound (numbers : List ℚ) (target : ℚ)
    (maxS : ℕ) (sols : List (List ℚ))
    (hrun : findSubsets numbers target maxS = .ok sols) :
    ∀ s ∈ sols, List.Sublist s numbers ∧ |s.sum - target| < eps := by
  unfold findSubsets findSubsetsSt at hrun
  split at hrun
  · exact absurd hrun (by simp [Except.map])
  · simp only [Except.map] at hrun
    cases hrun
    intro s hs
    have := backtrack_sols_sound none numbers target maxS
      (min (2 ^ numbers.length) (2 ^ 63 - 1)) 0 0 [] initState
      (by simp) (by simp) s hs
    rcases this with hmem | hprop
    · exact absurd hmem (by simp [initState])
    · exact hprop

/-! ## Correctness of the value-to-indices map (towards claim C6) -/

theorem lookupQueue_addIndex_self (v : ℚ) (i : ℕ) :
    ∀ m : List (ℚ × List ℕ),
      lookupQueue (addIndex m v i) v = lookupQueue m v ++ [i] := by
  intro m
  induction m with
  | nil => simp [addIndex, lookupQueue]
  | cons p rest ih =>
    obtain ⟨k, ixs⟩ := p
    rw [addIndex]
    by_cases hk : k = v
    · rw [if_pos hk]
      simp [lookupQueue, hk]
    · rw [if_neg hk]
      simp [lookupQueue, hk, ih]

theorem lookupQueue_addIndex_ne (v w : ℚ) (i : ℕ) (hw : w ≠ v) :
    ∀ m : List (ℚ × List ℕ),
      lookupQueue (addIndex m v i) w = lookupQueue m w := by
  intro m
  have hvw : v ≠ w := fun h => hw h.symm
  induction m with
  | nil => simp [addIndex, lookupQueue, hvw]
  | cons p rest ih =>
    obtain ⟨k, ixs⟩ := p
    rw [addIndex]
    by_cases hk : k = v
    · rw [if_pos hk]
      have : k ≠ w := fun h => hw (h ▸ hk)
      simp [lookupQueue, this]
    · rw [if_neg hk]
      by_cases hkw : k = w
      · simp [lookupQueue, hkw]
      · simp [lookupQueue, hkw, ih]

theorem buildMapAux_wf (input : List ℚ) :
    ∀ (vs : List ℚ) (i : ℕ) (m : List (ℚ × List ℕ)),
      (∀ k, k < vs.length → input.getD (i + k) 0 = vs.getD k 0) →
      (∀ w j, j ∈ lookupQueue m w → input.getD j 0 = w) →
      ∀ w j, j ∈ lookupQueue (buildMapAux m i vs) w →
        input.getD j 0 = w := by
  intro vs
  induction vs with
  | nil =>
    intro i m _ hm
    simpa [buildMapAux] using hm
  | cons v vs' ih =>
    intro i m hk hm
    rw [buildMapAux]
    refine ih (i + 1) (addIndex m v i) ?_ ?_
    · intro k hklen
      have h1 := hk (k + 1) (by simpa using hklen)
      have e : i + (k + 1) = i + 1 + k := by omega
      rw [e] at h1
      simpa using h1
    · intro w j hj
      by_cases hw : w = v
      · subst hw
        rw [lookupQueue_addIndex_self] at hj
        rcases List.mem_append.mp hj with hold | hnew
        · exact hm w j hold
        · rw [List.mem_singleton] at hnew
          subst hnew
          have := hk 0 (by simp)
          simpa using this
      · rw [lookupQueue_addIndex_ne v w i hw] at hj
        exact hm w j hj

theorem buildMapAux_count (v : ℚ) :
    ∀ (vs : List ℚ) (i : ℕ) (m : List (ℚ × List ℕ)),
      (lookupQueue (buildMapAux m i vs) v).length =
        (lookupQueue m v).length + vs.count v := by
  intro vs
  induction vs with
  | nil => simp [buildMapAux]
  | cons w vs' ih =>
    intro i m
    rw [buildMapAux, ih]
    by_cases hw : w = v
    · subst hw
      rw [lookupQueue_addIndex_self]
      simp [List.count_cons]
      omega
    · rw [lookupQueue_addIndex_ne w v i (fun h => hw h.symm)]
      simp [List.count_cons, hw]

theorem buildMap_wf (input : List ℚ) :
    ∀ w j, j ∈ lookupQueue (buildMap input) w → input.getD j 0 = w := by
  refine buildMapAux_wf input input 0 [] ?_ ?_
  · intro k _
    simp
  · intro w j hj
    simp [lookupQueue] at hj

theorem buildMap_count (input : List ℚ) (v : ℚ) :
    (lookupQueue (buildMap input) v).length = input.count v := by
  unfold buildMap
  rw [buildMapAux_count]
  simp [lookupQueue]

theorem popFirst_of_lookup (v : ℚ) (i : ℕ) (tl : List ℕ) :
    ∀ m : List (ℚ × List ℕ), lookupQueue m v = i :: tl →
      ∃ m', popFirst m v = some (i, m') ∧ lookupQueue m' v = tl ∧
        ∀ w, w ≠ v → lookupQueue m' w = lookupQueue m w := by
  intro m
  induction m with
  | nil => intro h; simp [lookupQueue] at h
  | cons p rest ih =>
    obtain ⟨k, ixs⟩ := p
    intro h
    by_cases hk : k = v
    · subst hk
      rw [lookupQueue, if_pos rfl] at h
      subst h
      refine ⟨(k, tl) :: rest, ?_, ?_, ?_⟩
      · simp [popFirst]
      · rw [lookupQueue, if_pos rfl]
      · intro w hw
        have hkw : k ≠ w := fun hh => hw hh.symm
        rw [lookupQueue, if_neg hkw, lookupQueue, if_neg hkw]
    · rw [lookupQueue, if_neg hk] at h
      obtain ⟨rest', hp, hl, ho⟩ := ih h
      refine ⟨(k, ixs) :: rest', ?_, ?_, ?_⟩
      · simp [popFirst, hk, hp]
      · rw [lookupQueue, if_neg hk]
        exact hl
      · intro w hw
        by_cases hkw : k = w
        · rw [lookupQueue, if_pos hkw, lookupQueue, if_pos hkw]
        · rw [lookupQueue, if_neg hkw, lookupQueue, if_neg hkw]
          exact ho w hw

theorem matchGo_complete (input : List ℚ) :
    ∀ (sol : List ℚ) (avail : List (ℚ × List ℕ)),
      (∀ w j, j ∈ lookupQueue avail w → input.getD j 0 = w) →
      (∀ v, sol.count v ≤ (lookupQueue avail v).length) →
      (matchGo avail sol).map (fun j => input.getD j 0) = sol := by
  intro sol
  induction sol with
  | nil => intro avail _ _; simp [matchGo]
  | cons v rest ih =>
    intro avail hwf hcount
    have hvpos : 0 < (lookupQueue avail v).length := by
      have := hcount v
      simp [List.count_cons] at this
      omega
    obtain ⟨i, tl, hq⟩ : ∃ i tl, lookupQueue avail v = i :: tl := by
      cases hq : lookupQueue avail v with
      | nil => rw [hq] at hvpos; simp at hvpos
      | cons i tl => exact ⟨i, tl, rfl⟩
    obtain ⟨m', hp, hl, ho⟩ := popFirst_of_lookup v i tl avail hq
    rw [matchGo, hp]
    rw [List.map_cons]
    have hival : input.getD i 0 = v :=
      hwf v i (by rw [hq]; exact List.mem_cons_self i tl)
    rw [hival]
    congr 1
    refine ih m' ?_ ?_
    · intro w j hj
      by_cases hwv : w = v
      · subst hwv
        rw [hl] at hj
        exact hwf w j (by rw [hq]; exact List.mem_cons_of_mem i hj)
      · rw [ho w hwv] at hj
        exact hwf w j hj
    · intro w
      by_cases hwv : w = v
      · subst hwv
        have := hcount w
        rw [hq] at this
        rw [hl]
        simp [List.count_cons] at this ⊢
        omega
      · have := hcount w
        rw [ho w hwv]
        calc rest.count w ≤ (v :: rest).count w := by
              simp [List.count_cons]
          _ ≤ _ := this

/-- When the raw solution's values occur in the original input with
sufficient multiplicity, `match_solution` matches them all, and the
matched positions carry exactly the solution's values. -/
theorem matchSolution_complete (input sol : List ℚ)
    (h : ∀ v, sol.count v ≤ input.count v) :
    (matchSolution input sol).map (fun j => input.getD j 0) = sol := by
  unfold matchSolution
  refine matchGo_complete input sol (buildMap input) (buildMap_wf input)
    ?_
  intro v
  rw [buildMap_count]
  exact h v

/-! ## Every reconciled view is the match of some raw solution -/

theorem dedupAux_mem (input : List ℚ) :
    ∀ (sols seen : List (List ℚ)) (x : List ℕ),
      x ∈ (dedupAux input seen sols).2 →
      ∃ s ∈ sols, x = matchSolution input s := by
  intro sols
  induction sols with
  | nil =>
    intro seen x hx
    simp [dedupAux] at hx
  | cons s rest ih =>
    intro seen x hx
    rw [dedupAux] at hx
    split at hx
    · obtain ⟨t, ht, rfl⟩ := ih seen x hx
      exact ⟨t, List.mem_cons_of_mem s ht, rfl⟩
    · simp only at hx
      rcases List.mem_cons.mp hx with rfl | hx'
      · exact ⟨s, List.mem_cons_self s rest, rfl⟩
      · obtain ⟨t, ht, rfl⟩ := ih _ x hx'
        exact ⟨t, List.mem_cons_of_mem s ht, rfl⟩

theorem reconcile_views_from_match (input : List ℚ)
    (solutions : List (List ℚ)) :
    ∀ x ∈ (reconcile input solutions).indices,
      ∃ s ∈ solutions, x = matchSolution input s := by
  intro x hx
  by_cases h1 : (uniqueIndicesOf input solutions).length <
      solutions.length
  · by_cases h2 : uniqueIndicesOf input solutions ≠ []
    · rw [reconcile_pad_case input solutions h2 h1] at hx
      dsimp only at hx
      rw [padWhile_spec] at hx
      rcases List.mem_append.mp hx with hu | hm
      · exact dedupAux_mem input solutions [] x hu
      · have hx0 : x = (uniqueIndicesOf input solutions).getD 0 [] :=
          List.eq_of_mem_replicate hm
        have hUpos : 0 <
            (uniqueIndicesOf input solutions).length :=
          List.length_pos.mpr h2
        subst hx0
        refine dedupAux_mem input solutions [] _ ?_
        rw [List.getD_eq_getElem _ _ hUpos]
        exact List.getElem_mem hUpos
    · rw [not_not] at h2
      unfold reconcile at hx
      dsimp only at hx
      rw [if_pos h1, if_neg (by rw [h2]; simp)] at hx
      rw [h2] at hx
      simp only [List.nil_append, List.take_length] at hx
      rw [if_neg (by simp)] at hx
      obtain ⟨s, hs, rfl⟩ := List.mem_map.mp hx
      exact ⟨s, hs, rfl⟩
  · unfold reconcile at hx
    dsimp only at hx
    rw [if_neg h1] at hx
    split at hx
    · exact dedupAux_mem input solutions [] x
        (List.mem_of_mem_take hx)
    · exact dedupAux_mem input solutions [] x hx

/-- **C6**: every solution view produced by reconciling the raw
solutions that `find_subsets` returned for the same original input
and target selects original values whose sum is within ε = 1e-6 of
the target. -/
theorem C6_view_sum_within_eps (numbers : List ℚ) (target : ℚ)
    (maxS : ℕ) (sols : List (List ℚ)) (view : List ℕ)
    (hrun : findSubsets numbers target maxS = .ok sols)
    (hview : view ∈ (reconcile numbers sols).indices) :
    |(view.map (fun j => numbers.getD j 0)).sum - target| < eps := by
  obtain ⟨s, hs, rfl⟩ :=
    reconcile_views_from_match numbers sols view hview
  have hsound := findSubsets_sols_sound numbers target maxS sols hrun
    s hs
  have hmap := matchSolution_complete numbers s
    (fun v => hsound.1.count_le v)
  rw [hmap]
  exact hsound.2

/-- Witness for C6: run `find_subsets([1,2], 3, 1)`, reconcile, and
check the unique view `[0, 1]`. -/
theorem C6_view_sum_within_eps_witness :
    |((([0, 1] : List ℕ).map
        (fun j => ([1, 2] : List ℚ).getD j 0)).sum - 3 : ℚ)| < eps := by
  refine C6_view_sum_within_eps [1, 2] 3 1 [[1, 2]] [0, 1] ?_ ?_
  · with_unfolding_all rfl
  · have h : (reconcile [1, 2] [[1, 2]]).indices = [[0, 1]] := by
      with_unfolding_all rfl
    rw [h]
    exact List.mem_singleton.mpr rfl

/-! ## Cooperative cancellation (claim C8)

An external `stop()` call is modelled by the read index `K` at which
the flag first reads true (`stopAt = some K`); `stopAt = none` is the
uncancelled run.  Once a run is stopped, every call returns
immediately (advancing only the read counter), and its frozen buffer
is a prefix of the uncancelled run's buffer. -/

theorem readStop_some_true (K : ℕ) (st : SolverState)
    (h : stoppedAt K st) : readStop (some K) st = true := by
  rcases h with hf | hr
  · simp [readStop, hf]
  · simp [readStop, hr]

theorem readStop_some_eq_flag (K : ℕ) (st : SolverState)
    (h : ¬ K ≤ st.reads) : readStop (some K) st = st.should_stop := by
  simp [readStop, h]

theorem stoppedAt_afterRead (K : ℕ) (st : SolverState)
    (h : stoppedAt K st) : stoppedAt K (afterRead st) := by
  rcases h with hf | hr
  · exact Or.inl (by simpa using hf)
  · right
    simp only [afterRead_reads]
    omega

theorem stopped_backtrack_returns (stopAt : Option ℕ)
    (numbers : List ℚ) (target : ℚ) (maxS total start : ℕ)
    (currentSum : ℚ) (currentSubset : List ℚ) (st : SolverState)
    (h : readStop stopAt st = true) :
    backtrack stopAt numbers target maxS total start currentSum
      currentSubset st = afterRead st := by
  rw [backtrack_eq, if_pos (Or.inl h)]

mutual

theorem backtrack_stop_sim (K : ℕ) (numbers : List ℚ) (target : ℚ)
    (maxS total start : ℕ) (currentSum : ℚ) (currentSubset : List ℚ)
    (st₁ st₂ : SolverState) (h : stopSim K st₁ st₂) :
    stopSim K
      (backtrack (some K) numbers target maxS total start currentSum
        currentSubset st₁)
      (backtrack none numbers target maxS total start currentSum
        currentSubset st₂) := by
  rcases h with rfl | ⟨hstop, hpre⟩
  · by_cases hg2 : readStop none st₁ = true ∨
        maxS ≤ st₁.solutions.length
    · have hg1 : readStop (some K) st₁ = true ∨
          maxS ≤ st₁.solutions.length := by
        rcases hg2 with hf | hl
        · simp only [readStop_none] at hf
          exact Or.inl (by simp [readStop, hf])
        · exact Or.inr hl
      rw [backtrack_eq (some K) numbers target maxS total start
        currentSum currentSubset st₁, if_pos hg1]
      rw [backtrack_eq none numbers target maxS total start currentSum
        currentSubset st₁, if_pos hg2]
      exact Or.inl rfl
    · by_cases hK : K ≤ st₁.reads
      · have hg1 : readStop (some K) st₁ = true := by
          simp [readStop, hK]
        rw [backtrack_eq (some K) numbers target maxS total start
          currentSum currentSubset st₁, if_pos (Or.inl hg1)]
        right
        refine ⟨stoppedAt_afterRead K st₁ (Or.inr hK), ?_⟩
        simp only [afterRead_solutions]
        exact (backtrack_mono none numbers target maxS total start
          currentSum currentSubset st₁).1
      · have hg1 : ¬(readStop (some K) st₁ = true ∨
            maxS ≤ st₁.solutions.length) := by
          rw [readStop_some_eq_flag K st₁ hK]
          simpa using hg2
        rw [backtrack_eq (some K) numbers target maxS total start
          currentSum currentSubset st₁, if_neg hg1]
        rw [backtrack_eq none numbers target maxS total start
          currentSum currentSubset st₁, if_neg hg2]
        by_cases heps : |currentSum - target| < eps
        · rw [if_pos heps, if_pos heps]
          exact Or.inl rfl
        · rw [if_neg heps, if_neg heps]
          by_cases hpr : target < currentSum
          · rw [if_pos hpr, if_pos hpr]
            exact Or.inl rfl
          · rw [if_neg hpr, if_neg hpr]
            have hloop := backtrackFor_stop_sim K numbers target maxS
              total start currentSum currentSubset (afterRead st₁)
              (afterRead st₁) (Or.inl rfl)
            rcases hloop with heq | ⟨hs, hp⟩
            · rw [heq]
              exact Or.inl rfl
            · right
              constructor
              · rcases hs with hf | hr
                · exact Or.inl (by simpa using hf)
                · right
                  simpa using hr
              · simpa using hp
  · have hg1 : readStop (some K) st₁ = true := readStop_some_true K st₁ hstop
    rw [backtrack_eq (some K) numbers target maxS total start
      currentSum currentSubset st₁, if_pos (Or.inl hg1)]
    right
    refine ⟨stoppedAt_afterRead K st₁ hstop, ?_⟩
    simp only [afterRead_solutions]
    exact hpre.trans (backtrack_mono none numbers target maxS total
      start currentSum currentSubset st₂).1
termination_by 2 * (numbers.length - start) + 3
decreasing_by all_goals (simp_wf; try omega)

theorem backtrackFor_stop_sim (K : ℕ) (numbers : List ℚ) (target : ℚ)
    (maxS total i : ℕ) (currentSum : ℚ) (currentSubset : List ℚ)
    (st₁ st₂ : SolverState) (h : stopSim K st₁ st₂) :
    stopSim K
      (backtrackFor (some K) numbers target maxS total i currentSum
        currentSubset st₁)
      (backtrackFor none numbers target maxS total i currentSum
        currentSubset st₂) := by
  by_cases hi : i < numbers.length
  · rw [backtrackFor_eq_lt (some K) numbers target maxS total i
      currentSum currentSubset st₁ hi]
    rw [backtrackFor_eq_lt none numbers target maxS total i currentSum
      currentSubset st₂ hi]
    have hin := backtrack_stop_sim K numbers target maxS total (i + 1)
      (currentSum + numbers.get ⟨i, hi⟩)
      (currentSubset ++ [numbers.get ⟨i, hi⟩]) st₁ st₂ h
    rcases hin with heq | ⟨hs, hp⟩
    · rw [heq]
      by_cases hb2 : readStop none
          (backtrack none numbers target maxS total (i + 1)
            (currentSum + numbers.get ⟨i, hi⟩)
            (currentSubset ++ [numbers.get ⟨i, hi⟩]) st₂) = true
      · have hb1 : readStop (some K)
            (backtrack none numbers target maxS total (i + 1)
              (currentSum + numbers.get ⟨i, hi⟩)
              (currentSubset ++ [numbers.get ⟨i, hi⟩]) st₂) = true := by
          simp only [readStop_none] at hb2
          simp only [readStop, Bool.or_eq_true, decide_eq_true_eq]
          exact Or.inl hb2
        rw [if_pos hb1, if_pos hb2]
        exact Or.inl rfl
      · by_cases hK : K ≤
            (backtrack none numbers target maxS total (i + 1)
              (currentSum + numbers.get ⟨i, hi⟩)
              (currentSubset ++ [numbers.get ⟨i, hi⟩]) st₂).reads
        · have hb1 : readStop (some K)
              (backtrack none numbers target maxS total (i + 1)
                (currentSum + numbers.get ⟨i, hi⟩)
                (currentSubset ++ [numbers.get ⟨i, hi⟩]) st₂) = true := by
            simp only [readStop, Bool.or_eq_true, decide_eq_true_eq]
            exact Or.inr hK
          rw [if_pos hb1, if_neg hb2]
          right
          refine ⟨stoppedAt_afterRead K _ (Or.inr hK), ?_⟩
          have hm := (backtrackFor_mono none numbers target maxS total
            (i + 1) currentSum currentSubset
            (afterRead (backtrack none numbers target maxS total (i + 1)
              (currentSum + numbers.get ⟨i, hi⟩)
              (currentSubset ++ [numbers.get ⟨i, hi⟩]) st₂))).1
          simpa using hm
        · have hb1 : readStop (some K)
              (backtrack none numbers target maxS total (i + 1)
                (currentSum + numbers.get ⟨i, hi⟩)
                (currentSubset ++ [numbers.get ⟨i, hi⟩]) st₂) = false := by
            rw [readStop_some_eq_flag K _ hK]
            simpa using hb2
          rw [if_neg (by rw [hb1]; simp), if_neg hb2]
          exact backtrackFor_stop_sim K numbers target maxS total
            (i + 1) currentSum currentSubset (afterRead _)
            (afterRead _) (Or.inl rfl)
    · have hb1 : readStop (some K)
          (backtrack (some K) numbers target maxS total (i + 1)
            (currentSum + numbers.get ⟨i, hi⟩)
            (currentSubset ++ [numbers.get ⟨i, hi⟩]) st₁) = true :=
        readStop_some_true K _ hs
      rw [if_pos hb1]
      split
      · right
        exact ⟨stoppedAt_afterRead K _ hs, by simpa using hp⟩
      · right
        refine ⟨stoppedAt_afterRead K _ hs, ?_⟩
        simp only [afterRead_solutions]
        refine hp.trans ?_
        have hm := (backtrackFor_mono none numbers target maxS total
          (i + 1) currentSum currentSubset
          (afterRead (backtrack none numbers target maxS total (i + 1)
            (currentSum + numbers.get ⟨i, hi⟩)
            (currentSubset ++ [numbers.get ⟨i, hi⟩]) st₂))).1
        simpa using hm
  · rw [backtrackFor_eq_ge (some K) numbers target maxS total i
      currentSum currentSubset st₁ hi]
    rw [backtrackFor_eq_ge none numbers target maxS total i currentSum
      currentSubset st₂ hi]
    exact h
termination_by 2 * (numbers.length - i) + 2
decreasing_by all_goals (simp_wf; try omega)

end

/-- **C8**: once a read of `should_stop` returns true — whether the
flag was set by a full buffer or an external `stop()` became visible
— the current `_backtrack` call returns immediately with the buffer
untouched; consequently, for every external stop point `K`, the
solutions of the cancelled run form a prefix of the solutions of the
uncancelled run with the same inputs. -/
theorem C8_stop_freezes_results (numbers : List ℚ) (target : ℚ)
    (maxS : ℕ) :
    (∀ (stopAt : Option ℕ) (total start : ℕ) (currentSum : ℚ)
        (currentSubset : List ℚ) (st : SolverState),
        readStop stopAt st = true →
        backtrack stopAt numbers target maxS total start currentSum
          currentSubset st = afterRead st) ∧
      ∀ (K : ℕ) (st₁ st₂ : SolverState),
        findSubsetsSt (some K) numbers target maxS = .ok st₁ →
        findSubsetsSt none numbers target maxS = .ok st₂ →
        st₁.solutions <+: st₂.solutions := by
  constructor
  · intro stopAt total start currentSum currentSubset st h
    exact stopped_backtrack_returns stopAt numbers target maxS total
      start currentSum currentSubset st h
  · intro K st₁ st₂ h1 h2
    unfold findSubsetsSt at h1 h2
    split at h1
    · exact absurd h1 (by simp)
    · split at h2
      · exact absurd h2 (by simp)
      · simp only [Except.ok.injEq] at h1 h2
        subst h1
        subst h2
        have hsim := backtrack_stop_sim K numbers target maxS
          (min (2 ^ numbers.length) (2 ^ 63 - 1)) 0 0 [] initState
          initState (Or.inl rfl)
        rcases hsim with heq | ⟨_, hp⟩
        · rw [heq]
        · exact hp

/-- Witness for C8 on the input `[1]`, target `1`,
`max_solutions = 1`: a call entered with the flag set returns
immediately, and the run stopped at its very first flag read (frozen
at zero solutions) yields a prefix of the uncancelled run's
`[[1]]`. -/
theorem C8_stop_freezes_results_witness :
    backtrack none [1] 1 1 2 0 0 []
        ⟨true, [], 0, [], 0⟩ = afterRead ⟨true, [], 0, [], 0⟩ ∧
      ([] : List (List ℚ)) <+: [[1]] := by
  constructor
  · exact (C8_stop_freezes_results [1] 1 1).1 none 2 0 0 []
      ⟨true, [], 0, [], 0⟩ (by with_unfolding_all rfl)
  · have h1 : findSubsetsSt (some 0) [1] 1 1 =
        .ok ⟨false, [], 0, [], 1⟩ := by with_unfolding_all rfl
    have h2 : findSubsetsSt none [1] 1 1 =
        .ok ⟨true, [[1]], 1, [50], 3⟩ := by with_unfolding_all rfl
    exact (C8_stop_freezes_results [1] 1 1).2 0 _ _ h1 h2

end SubsetSum
